import Mathlib

/-
Verification of the nsplitter core (src/core.py).

The file shallowly embeds the three functions of src/core.py:

* `split_file`   (core.py lines 37-113): byte-level splitting loop, output
  naming, progress reports and the effect trace (directory creation, fragment
  writes, the absent source-file removal).
* `collect_files` (core.py lines 115-134): directory enumeration by extension
  via `os.walk`.
* the elapsed-time formatter is wall-clock bound and is not embedded; reports
  carry everything except the elapsed-time string.

Modelling conventions:

* Python `str` is embedded as `List Char`; file contents are polymorphic
  lists (the code never inspects byte values).
* `math.ceil(filesize / MAX_SPLIT_SIZE)` (core.py line 59) uses Python float
  ("true") division, which CPython computes as the correctly rounded
  (round-to-nearest, ties-to-even) IEEE-754 binary64 value of the exact
  quotient.  `ceilFloatDiv` reproduces that semantics exactly with integer
  arithmetic (significand/exponent form); overflow and subnormals are far
  outside the reachable range of the quotients involved.
* `os.path.basename/dirname/splitext/join` are embedded following posixpath's
  documented algorithms; `os.walk` follows its documented top-down traversal,
  including the suppression (default `onerror=None`) of the error for a
  missing directory.
* Effects (directory creation, fragment file writes, progress prints, file
  removal) are recorded in an explicit trace `List (Eff α)` in program order.
-/

namespace NSplitter

/-! ### Constants (core.py lines 15-20) -/

def ONE_KB : Nat := 2 ^ 10

def THIRTY_TWO_KB : Nat := 32 * ONE_KB

def SIXTY_FOUR_KB : Nat := 64 * ONE_KB

def FOUR_GB : Nat := 4 * 2 ^ 30

def MAX_SPLIT_SIZE : Nat := FOUR_GB - SIXTY_FOUR_KB

/-! ### Python binary64 true division, rounded up with `math.ceil`

CPython's `int.__truediv__` returns the IEEE-754 binary64 double nearest to
the exact rational quotient (ties to even).  We reproduce the computation on
exact integers: find the floor base-2 exponent `e` of `a / b`, scale the
quotient to a 53-bit significand, round half-to-even, and take the ceiling
of the resulting dyadic rational. -/

/-- Number of binary digits of `n` (`0` for `0`), with structural fuel so the
kernel can evaluate it on large literals. -/
def bitLenAux : Nat → Nat → Nat
  | 0, _ => 0
  | fuel+1, n => if n = 0 then 0 else bitLenAux fuel (n / 2) + 1

def bitLen (n : Nat) : Nat := bitLenAux n n

/-- Round `num / den` to the nearest integer, ties to even (`den > 0`). -/
def rneHalfEven (num den : Nat) : Nat :=
  let q := num / den
  let r := num % den
  if 2 * r < den then q
  else if den < 2 * r then q + 1
  else if q % 2 = 0 then q else q + 1

/-- Decide `a / b ≥ 2 ^ e` by cross-multiplication. -/
def divGePow2 (a b : Nat) (e : Int) : Bool :=
  if 0 ≤ e then b * 2 ^ e.toNat ≤ a else b ≤ a * 2 ^ (-e).toNat

/-- The floor base-2 exponent of `a / b` for `a, b > 0`. -/
def qexp (a b : Nat) : Int :=
  let e0 : Int := (bitLen a : Int) - (bitLen b : Int)
  if divGePow2 a b e0 then e0 else e0 - 1

/-- `math.ceil(a / b)` where `/` is Python binary64 true division (`b > 0`). -/
def ceilFloatDiv (a b : Nat) : Nat :=
  if a = 0 then 0
  else
    let e : Int := qexp a b
    let t : Int := 52 - e
    if 0 ≤ t then
      let s := rneHalfEven (a * 2 ^ t.toNat) b
      (s + 2 ^ t.toNat - 1) / 2 ^ t.toNat
    else
      (rneHalfEven a (b * 2 ^ (-t).toNat)) * 2 ^ (-t).toNat

/-- core.py line 59: `num_splits = math.ceil(filesize / MAX_SPLIT_SIZE)`. -/
def num_splits (filesize : Nat) : Nat := ceilFloatDiv filesize MAX_SPLIT_SIZE

/-! ### posixpath helpers used by core.py (Python `str` as `List Char`) -/

/-- `os.path.basename`: the part after the final slash. -/
def basename (p : List Char) : List Char :=
  (p.reverse.takeWhile (fun c => c ≠ '/')).reverse

/-- The head `p[:i]`, `i = p.rfind('/') + 1`, used by `posixpath.split`. -/
def rawHead (p : List Char) : List Char :=
  (p.reverse.dropWhile (fun c => c ≠ '/')).reverse

/-- `os.path.dirname`: the raw head with trailing slashes stripped unless it
consists only of slashes. -/
def dirname (p : List Char) : List Char :=
  let h := rawHead p
  if h.all (fun c => c = '/') then h
  else (h.reverse.dropWhile (fun c => c = '/')).reverse

/-- `os.path.join a b` for a single non-absolute-aware pair, following
posixpath: `b` absolute wins; empty or slash-terminated `a` concatenates;
otherwise a slash is inserted. -/
def joinPath (a b : List Char) : List Char :=
  if b.head? = some '/' then b
  else if a = [] ∨ a.getLast? = some '/' then a ++ b
  else a ++ '/' :: b

/-- `os.path.splitext` restricted to a basename (no slashes): split at the
last dot provided some earlier character of the name is not a dot. -/
def splitextBase (b : List Char) : List Char × List Char :=
  let r := b.reverse
  let tl := r.takeWhile (fun c => c ≠ '.')
  if tl.length = r.length then (b, [])
  else
    let pre := (r.drop (tl.length + 1)).reverse
    if pre.any (fun c => c ≠ '.') then (pre, '.' :: tl.reverse) else (b, [])

/-- Python `str.lstrip "."`: drop all leading dots. -/
def lstripDot (l : List Char) : List Char := l.dropWhile (fun c => c = '.')

/-- core.py line 66: `os.path.splitext(filepath)[1].lstrip(".")`.  The
extension of a full path is the extension of its basename. -/
def file_extension (p : List Char) : List Char :=
  lstripDot (splitextBase (basename p)).2

/-- core.py line 67: `os.path.splitext(os.path.basename(filepath))[0]`. -/
def filename_without_extension (p : List Char) : List Char :=
  (splitextBase (basename p)).1

/-- The literal `".split."` infix of the split directory name. -/
def splitMarker : List Char := ['.', 's', 'p', 'l', 'i', 't', '.']

/-- core.py line 68: the split directory
`os.path.join(parent_dir, f"{stem}.split.{ext}")`. -/
def split_dir (p : List Char) : List Char :=
  joinPath (dirname p) (filename_without_extension p ++ splitMarker ++ file_extension p)

/-! ### Fragment file names: `f"{split:02}"` (core.py line 81) -/

/-- Decimal digits of `n`, most significant first, with structural fuel. -/
def digitsAux : Nat → Nat → List Char
  | 0, _ => []
  | fuel+1, n =>
    if n < 10 then [Nat.digitChar n]
    else digitsAux fuel (n / 10) ++ [Nat.digitChar (n % 10)]

def decimalDigits (n : Nat) : List Char := digitsAux (n + 1) n

/-- `f"{n:02}"`: decimal rendering left-padded with zeros to width two, never
truncated. -/
def fragName (n : Nat) : List Char :=
  List.replicate (2 - (decimalDigits n).length) '0' ++ decimalDigits n

/-! ### The splitter engine (core.py lines 37-113) -/

/-- One progress print (core.py lines 99-107) minus the elapsed wall-clock
string, which is real time and outside the embedding: fragment index plus
one, total fragment count, progress ratio, cumulative bytes written, the
caller-supplied file size, and the input's basename.  The ratio is kept as
an exact rational; nothing proved here depends on its float rounding. -/
structure Report where
  fragIdx : Nat
  numFragments : Nat
  ratio : ℚ
  cumBytes : Nat
  fsize : Nat
  fname : List Char
deriving DecidableEq

/-- Filesystem-visible effects of one `split_file` call, in program order.
`removeFile` is the effect the commented-out `os.remove(filepath)`
(core.py line 110) would emit; the model shows it is never produced. -/
inductive Eff (α : Type) where
  | makedirs (path : List Char)
  | fileWrite (path : List Char) (data : List α)
  | emitReport (r : Report)
  | removeFile (path : List Char)

/-- The inner copy loop (core.py lines 84-97): read up to `B` bytes at a
time, append them to the fragment, stop when the fragment has reached
`MAX_SPLIT_SIZE` bytes or a read returns nothing.  Returns the fragment and
the rest of the input stream. -/
def readLoop (B : Nat) (data : List α) (written : Nat) (frag : List α) :
    List α × List α :=
  if written < MAX_SPLIT_SIZE then
    if _hc : (data.take B).isEmpty then (frag, data)
    else readLoop B (data.drop B) (written + (data.take B).length) (frag ++ data.take B)
  else (frag, data)
termination_by data.length
decreasing_by
  rw [List.isEmpty_iff, List.take_eq_nil_iff, not_or] at _hc
  have h3 : 0 < data.length := List.length_pos.mpr _hc.2
  simp only [List.length_drop]
  omega

/-- The per-fragment loop (core.py lines 79-107): for each remaining
fragment index, run `readLoop` on the rest of the input, write the fragment
file named `f"{split:02}"` inside the split directory, and print one
progress report with the accumulated `total_bytes_written`. -/
def splitGo (B : Nat) (fname dirPath : List Char) (fsize nsp : Nat) :
    Nat → Nat → Nat → List α → List (Eff α)
  | 0, _, _, _ => []
  | k+1, idx, tot, d =>
    Eff.fileWrite (joinPath dirPath (fragName idx)) (readLoop B d 0 []).1 ::
    Eff.emitReport ⟨idx + 1, nsp,
      ((tot + (readLoop B d 0 []).1.length : Nat) : ℚ) / (fsize : ℚ),
      tot + (readLoop B d 0 []).1.length, fsize, fname⟩ ::
    splitGo B fname dirPath fsize nsp k (idx + 1)
      (tot + (readLoop B d 0 []).1.length) (readLoop B d 0 []).2

inductive PyErr where
  | fileNotFound
deriving DecidableEq

/-- core.py lines 37-113.  `content` is the input file's byte sequence, or
`none` when `filepath` does not exist, in which case `open` raises
FileNotFoundError after `os.makedirs` has already run (line 69 precedes
line 77).  Returns the effect trace and either the split directory path or
the error. -/
def split_file (filepath : List Char) (content : Option (List α))
    (filesize : Nat) (buf_size : Nat := THIRTY_TWO_KB) :
    List (Eff α) × Except PyErr (List Char) :=
  let filename := basename filepath
  let nsp := num_splits filesize
  let sd := split_dir filepath
  match content with
  | none => ([Eff.makedirs sd], Except.error PyErr.fileNotFound)
  | some data =>
    (Eff.makedirs sd :: splitGo buf_size filename sd filesize nsp nsp 0 0 data,
     Except.ok sd)

/-- The fragment contents recorded in a trace, in write order. -/
def fragmentsOf (t : List (Eff α)) : List (List α) :=
  t.filterMap fun e =>
    match e with
    | Eff.fileWrite _ d => some d
    | _ => none

/-- The fragment file paths recorded in a trace, in write order. -/
def writePathsOf (t : List (Eff α)) : List (List Char) :=
  t.filterMap fun e =>
    match e with
    | Eff.fileWrite p _ => some p
    | _ => none

/-- The progress reports recorded in a trace, in emission order. -/
def reportsOf (t : List (Eff α)) : List Report :=
  t.filterMap fun e =>
    match e with
    | Eff.emitReport r => some r
    | _ => none

/-! ### The file enumerator (core.py lines 115-134) -/

/-- A directory tree: regular files and subdirectories, in `os.scandir`
order. -/
inductive Entry where
  | file (name : List Char)
  | dir (name : List Char) (children : List Entry)

/-- The file names among a directory's entries, in order. -/
def fileNamesOf (es : List Entry) : List (List Char) :=
  es.filterMap fun e =>
    match e with
    | Entry.file n => some n
    | Entry.dir _ _ => none

/-- The frames `(root, filenames)` that `os.walk` yields strictly below a
directory whose entries are `es`, in top-down order (each subdirectory's
frame, then its descendants, then its later siblings).  The `dirnames`
component is omitted: core.py ignores it. -/
def walkFrames (path : List Char) : List Entry → List (List Char × List (List Char))
  | [] => []
  | Entry.file _ :: rest => walkFrames path rest
  | Entry.dir n ch :: rest =>
    (joinPath path n, fileNamesOf ch) ::
      (walkFrames (joinPath path n) ch ++ walkFrames path rest)

/-- `os.walk top`: nothing at all when the directory does not exist (the
scandir error is passed to the default `onerror=None` and swallowed),
otherwise the top frame followed by the frames of all subdirectories. -/
def osWalk (top : List Char) (fs : Option (List Entry)) :
    List (List Char × List (List Char)) :=
  match fs with
  | none => []
  | some es => (top, fileNamesOf es) :: walkFrames top es

/-- The body of the walk loop (core.py lines 128-133): collect the matching
file names of each frame, and stop after the first frame (`break`) when not
recursive. -/
def collectGo (ext : List Char) (recursive : Bool) :
    List (List Char × List (List Char)) → List (List Char)
  | [] => []
  | (root, files) :: rest =>
    ((files.filter fun f => ext.isSuffixOf f).map fun f => joinPath root f) ++
      (if recursive then collectGo ext recursive rest else [])

/-- core.py lines 115-134.  `fs` is the directory's tree, or `none` when
`directory` does not exist. -/
def collect_files (directory : List Char) (fs : Option (List Entry))
    (extension : List Char) (recursive : Bool) : List (List Char) :=
  collectGo extension recursive (osWalk directory fs)

/-! ### Derived quantities used in statements -/

/-- Exact mathematical ceiling division `⌈a / b⌉` on integers. -/
def ceilDivNat (a b : Nat) : Nat := (a + b - 1) / b

/-- Bytes one run of the inner loop consumes when it starts with `written`
bytes already in the fragment and the stream is long enough: the least
multiple of `B` reaching `MAX_SPLIT_SIZE - written`. -/
def capFrom (B written : Nat) : Nat :=
  B * ((MAX_SPLIT_SIZE - written + B - 1) / B)

/-- Per-fragment byte cap of the inner loop: the least multiple of
`buf_size` that is `≥ MAX_SPLIT_SIZE` (equal to `MAX_SPLIT_SIZE` exactly
when `buf_size` divides it). -/
def bufCap (B : Nat) : Nat := capFrom B 0

/-! ### The inner loop in closed form -/

theorem capFrom_of_ge {B w : Nat} (h : MAX_SPLIT_SIZE ≤ w) : capFrom B w = 0 := by
  unfold capFrom
  rw [Nat.sub_eq_zero_of_le h]
  cases B with
  | zero => rfl
  | succ b =>
    have h1 : (0 + (b + 1) - 1) / (b + 1) = 0 := Nat.div_eq_of_lt (by omega)
    rw [h1, Nat.mul_zero]

theorem capFrom_ge_B {B w : Nat} (hB : 0 < B) (hw : w < MAX_SPLIT_SIZE) :
    B ≤ capFrom B w := by
  unfold capFrom
  have h1 : 1 ≤ (MAX_SPLIT_SIZE - w + B - 1) / B := by
    rw [Nat.le_div_iff_mul_le hB]
    omega
  calc B = B * 1 := (Nat.mul_one B).symm
  _ ≤ B * ((MAX_SPLIT_SIZE - w + B - 1) / B) := Nat.mul_le_mul_left B h1

theorem capFrom_last {B w : Nat} (hB : 0 < B) (hw : w < MAX_SPLIT_SIZE)
    (h : MAX_SPLIT_SIZE ≤ w + B) : capFrom B w = B := by
  unfold capFrom
  have h2 : MAX_SPLIT_SIZE - w + B - 1 = (MAX_SPLIT_SIZE - w - 1) + B := by omega
  rw [h2, Nat.add_div_right _ hB, Nat.div_eq_of_lt (by omega)]
  rw [Nat.zero_add, Nat.mul_one]

theorem capFrom_step {B w : Nat} (hB : 0 < B) (h : w + B < MAX_SPLIT_SIZE) :
    capFrom B w = capFrom B (w + B) + B := by
  unfold capFrom
  have h2 : MAX_SPLIT_SIZE - w + B - 1 = (MAX_SPLIT_SIZE - (w + B) + B - 1) + B := by omega
  rw [h2, Nat.add_div_right _ hB, Nat.mul_add, Nat.mul_one]

theorem drop_congr_min {l : List α} {m n : Nat}
    (h : min m l.length = min n l.length) : l.drop m = l.drop n := by
  by_cases hm : m ≤ l.length
  · by_cases hn : n ≤ l.length
    · have hmn : m = n := by omega
      rw [hmn]
    · have h1 : m = l.length := by omega
      rw [h1, List.drop_eq_nil_of_le (Nat.le_refl _), List.drop_eq_nil_of_le (by omega)]
  · by_cases hn : n ≤ l.length
    · have h1 : n = l.length := by omega
      rw [h1, List.drop_eq_nil_of_le (by omega), List.drop_eq_nil_of_le (Nat.le_refl _)]
    · rw [List.drop_eq_nil_of_le (by omega), List.drop_eq_nil_of_le (by omega)]

theorem splitStep_min (B L w : Nat) (hB : 0 < B) (hw : w < MAX_SPLIT_SIZE) :
    min (B + min (L - B) (capFrom B (w + min B L))) L = min L (capFrom B w) := by
  by_cases hLB : L ≤ B
  · have h3 : B ≤ capFrom B w := capFrom_ge_B hB hw
    omega
  · have h1 : min B L = B := by omega
    rw [h1]
    by_cases h2 : MAX_SPLIT_SIZE ≤ w + B
    · rw [capFrom_of_ge h2, capFrom_last hB hw h2]
      omega
    · rw [@capFrom_step B w hB (by omega)]
      omega

theorem readLoop_eq_aux (B : Nat) :
    ∀ (n : Nat) (data : List α), data.length ≤ n → ∀ (w : Nat) (frag : List α),
      readLoop B data w frag =
        (frag ++ data.take (min data.length (capFrom B w)),
         data.drop (min data.length (capFrom B w))) := by
  intro n
  induction n with
  | zero =>
    intro data hlen w frag
    have hd : data = [] := List.length_eq_zero.mp (Nat.le_zero.mp hlen)
    subst hd
    unfold readLoop
    simp
  | succ n ih =>
    intro data hlen w frag
    unfold readLoop
    by_cases hw : w < MAX_SPLIT_SIZE
    · rw [if_pos hw]
      by_cases he : (data.take B).isEmpty = true
      · rw [dif_pos he]
        rw [List.isEmpty_iff, List.take_eq_nil_iff] at he
        rcases he with hB | hd
        · subst hB
          have hc : capFrom 0 w = 0 := by unfold capFrom; rw [Nat.zero_mul]
          rw [hc]
          simp
        · subst hd
          simp
      · rw [dif_neg he]
        rw [List.isEmpty_iff, List.take_eq_nil_iff, not_or] at he
        have hB : 0 < B := Nat.pos_of_ne_zero he.1
        have hL : 0 < data.length := List.length_pos.mpr he.2
        have hlen2 : (data.drop B).length ≤ n := by
          simp only [List.length_drop]
          omega
        rw [ih (data.drop B) hlen2]
        simp only [List.length_drop, List.length_take]
        rw [List.append_assoc, ← List.take_add, List.drop_drop]
        have hkey := splitStep_min B data.length w hB hw
        have ht : data.take
              (B + min (data.length - B) (capFrom B (w + min B data.length))) =
            data.take (min data.length (capFrom B w)) := by
          rw [List.take_eq_take, hkey]
          omega
        have hd2 : data.drop
              (B + min (data.length - B) (capFrom B (w + min B data.length))) =
            data.drop (min data.length (capFrom B w)) := by
          apply drop_congr_min
          rw [hkey]
          omega
        rw [ht, hd2]
    · rw [if_neg hw]
      rw [capFrom_of_ge (by omega)]
      simp

/-- core.py lines 84-97 in closed form: starting with `written` bytes already
in the fragment, the loop moves `min (length data) (capFrom B written)` bytes
from the stream to the fragment. -/
theorem readLoop_eq (B : Nat) (data : List α) (w : Nat) (frag : List α) :
    readLoop B data w frag =
      (frag ++ data.take (min data.length (capFrom B w)),
       data.drop (min data.length (capFrom B w))) :=
  readLoop_eq_aux B data.length data (Nat.le_refl _) w frag

theorem take_min_length {l : List α} {c : Nat} :
    l.take (min l.length c) = l.take c := by
  rw [List.take_eq_take]
  omega

theorem drop_min_length {l : List α} {c : Nat} :
    l.drop (min l.length c) = l.drop c :=
  drop_congr_min (by omega)

/-- A fresh fragment takes exactly `min (length d) (bufCap B)` bytes. -/
theorem readLoop_zero (B : Nat) (d : List α) :
    readLoop B d 0 [] = (d.take (bufCap B), d.drop (bufCap B)) := by
  rw [readLoop_eq, List.nil_append]
  unfold bufCap
  rw [take_min_length, drop_min_length]

/-! ### The per-fragment loop in closed form -/

theorem splitGo_fragments (B : Nat) (fname dirPath : List Char) (fsize nsp : Nat) :
    ∀ (k idx tot : Nat) (d : List α),
      fragmentsOf (splitGo B fname dirPath fsize nsp k idx tot d) =
        (List.range k).map fun i => (d.drop (i * bufCap B)).take (bufCap B) := by
  intro k
  induction k with
  | zero => intro idx tot d; rfl
  | succ k ih =>
    intro idx tot d
    rw [List.range_succ_eq_map, List.map_cons, List.map_map]
    simp only [splitGo, readLoop_zero, fragmentsOf, List.filterMap_cons]
    rw [← fragmentsOf, ih]
    simp only [Nat.zero_mul, List.drop_zero]
    congr 1
    apply List.map_congr_left
    intro i _
    simp only [Function.comp]
    have harg : bufCap B + i * bufCap B = (i + 1) * bufCap B := by
      rw [Nat.succ_mul]
      omega
    rw [List.drop_drop, harg]

theorem splitGo_writePaths (B : Nat) (fname dirPath : List Char) (fsize nsp : Nat) :
    ∀ (k idx tot : Nat) (d : List α),
      writePathsOf (splitGo B fname dirPath fsize nsp k idx tot d) =
        (List.range k).map fun i => joinPath dirPath (fragName (idx + i)) := by
  intro k
  induction k with
  | zero => intro idx tot d; rfl
  | succ k ih =>
    intro idx tot d
    rw [List.range_succ_eq_map, List.map_cons, List.map_map]
    simp only [splitGo, writePathsOf, List.filterMap_cons]
    rw [← writePathsOf, ih]
    rw [Nat.add_zero]
    congr 1
    apply List.map_congr_left
    intro i _
    simp only [Function.comp]
    congr 2
    omega

theorem splitGo_reports (B : Nat) (fname dirPath : List Char) (fsize nsp : Nat) :
    ∀ (k idx tot : Nat) (d : List α),
      reportsOf (splitGo B fname dirPath fsize nsp k idx tot d) =
        (List.range k).map fun i =>
          ⟨idx + i + 1, nsp,
           ((tot + min d.length ((i + 1) * bufCap B) : Nat) : ℚ) / (fsize : ℚ),
           tot + min d.length ((i + 1) * bufCap B), fsize, fname⟩ := by
  intro k
  induction k with
  | zero => intro idx tot d; rfl
  | succ k ih =>
    intro idx tot d
    rw [List.range_succ_eq_map, List.map_cons, List.map_map]
    simp only [splitGo, readLoop_zero, reportsOf, List.filterMap_cons]
    rw [← reportsOf, ih]
    have hlt : (d.take (bufCap B)).length = min d.length (bufCap B) := by
      rw [List.length_take]
      omega
    rw [hlt]
    have hcum0 : tot + min d.length (bufCap B) =
        tot + min d.length ((0 + 1) * bufCap B) := by
      rw [Nat.zero_add, Nat.one_mul]
    rw [hcum0]
    congr 1
    apply List.map_congr_left
    intro i _
    simp only [Function.comp, List.length_drop]
    have hcum : tot + min d.length ((0 + 1) * bufCap B) +
          min (d.length - bufCap B) ((i + 1) * bufCap B) =
        tot + min d.length ((i + 1 + 1) * bufCap B) := by
      rw [Nat.zero_add, Nat.one_mul, @Nat.succ_mul (i + 1) (bufCap B),
        @Nat.succ_mul i (bufCap B)]
      omega
    rw [hcum]
    have hidx : idx + 1 + i = idx + (i + 1) := by omega
    rw [hidx]

theorem splitGo_no_remove (B : Nat) (fname dirPath : List Char) (fsize nsp : Nat) :
    ∀ (k idx tot : Nat) (d : List α) (p : List Char),
      Eff.removeFile p ∉ splitGo B fname dirPath fsize nsp k idx tot d := by
  intro k
  induction k with
  | zero => intro idx tot d p h; exact List.not_mem_nil _ h
  | succ k ih =>
    intro idx tot d p h
    simp only [splitGo, List.mem_cons] at h
    rcases h with h | h | h
    · exact Eff.noConfusion h
    · exact Eff.noConfusion h
    · exact ih _ _ _ _ h

theorem splitGo_no_makedirs (B : Nat) (fname dirPath : List Char) (fsize nsp : Nat) :
    ∀ (k idx tot : Nat) (d : List α) (p : List Char),
      Eff.makedirs p ∉ splitGo B fname dirPath fsize nsp k idx tot d := by
  intro k
  induction k with
  | zero => intro idx tot d p h; exact List.not_mem_nil _ h
  | succ k ih =>
    intro idx tot d p h
    simp only [splitGo, List.mem_cons] at h
    rcases h with h | h | h
    · exact Eff.noConfusion h
    · exact Eff.noConfusion h
    · exact ih _ _ _ _ h

/-- Every fragment write in the per-fragment loop targets a path of the form
`dirPath/NN`. -/
theorem splitGo_fileWrite_path (B : Nat) (fname dirPath : List Char)
    (fsize nsp : Nat) (k idx tot : Nat) (d : List α) (p : List Char) (dd : List α)
    (h : Eff.fileWrite p dd ∈ splitGo B fname dirPath fsize nsp k idx tot d) :
    ∃ i, p = joinPath dirPath (fragName i) := by
  have hp : p ∈ writePathsOf (splitGo B fname dirPath fsize nsp k idx tot d) := by
    rw [writePathsOf, List.mem_filterMap]
    exact ⟨Eff.fileWrite p dd, h, rfl⟩
  rw [splitGo_writePaths] at hp
  rcases List.mem_map.mp hp with ⟨i, _, hi⟩
  exact ⟨idx + i, hi.symm⟩

/-- Concatenating the first `k` fragments yields the first `k * bufCap B`
bytes of the input. -/
theorem fragments_flatten (B : Nat) (d : List α) :
    ∀ (k : Nat),
      ((List.range k).map fun i => (d.drop (i * bufCap B)).take (bufCap B)).flatten =
        d.take (k * bufCap B) := by
  intro k
  induction k with
  | zero => simp
  | succ k ih =>
    rw [List.range_succ, List.map_append, List.flatten_append, ih]
    rw [List.map_cons, List.map_nil, List.flatten_cons, List.flatten_nil,
      List.append_nil]
    rw [Nat.succ_mul, List.take_add]

/-! ### Assembled facts about `split_file` on an existing input -/

theorem fragmentsOf_cons_makedirs (p : List Char) (t : List (Eff α)) :
    fragmentsOf (Eff.makedirs p :: t) = fragmentsOf t := rfl

theorem reportsOf_cons_makedirs (p : List Char) (t : List (Eff α)) :
    reportsOf (Eff.makedirs p :: t) = reportsOf t := rfl

theorem writePathsOf_cons_makedirs (p : List Char) (t : List (Eff α)) :
    writePathsOf (Eff.makedirs p :: t) = writePathsOf t := rfl

theorem split_file_trace (filepath : List Char) (data : List α) (filesize B : Nat) :
    (split_file filepath (some data) filesize B).1 =
      Eff.makedirs (split_dir filepath) ::
        splitGo B (basename filepath) (split_dir filepath) filesize
          (num_splits filesize) (num_splits filesize) 0 0 data := rfl

theorem split_file_fragments (filepath : List Char) (data : List α)
    (filesize B : Nat) :
    fragmentsOf (split_file filepath (some data) filesize B).1 =
      (List.range (num_splits filesize)).map
        fun i => (data.drop (i * bufCap B)).take (bufCap B) := by
  rw [split_file_trace, fragmentsOf_cons_makedirs, splitGo_fragments]

theorem split_file_reports (filepath : List Char) (data : List α)
    (filesize B : Nat) :
    reportsOf (split_file filepath (some data) filesize B).1 =
      (List.range (num_splits filesize)).map
        fun i =>
          ⟨i + 1, num_splits filesize,
           ((min data.length ((i + 1) * bufCap B) : Nat) : ℚ) / (filesize : ℚ),
           min data.length ((i + 1) * bufCap B), filesize, basename filepath⟩ := by
  rw [split_file_trace, reportsOf_cons_makedirs, splitGo_reports]
  apply List.map_congr_left
  intro i _
  rw [Nat.zero_add, Nat.zero_add]

theorem split_file_writePaths (filepath : List Char) (data : List α)
    (filesize B : Nat) :
    writePathsOf (split_file filepath (some data) filesize B).1 =
      (List.range (num_splits filesize)).map
        fun i => joinPath (split_dir filepath) (fragName i) := by
  rw [split_file_trace, writePathsOf_cons_makedirs, splitGo_writePaths]
  apply List.map_congr_left
  intro i _
  rw [Nat.zero_add]

/-- Concatenating all fragments in write order yields the first
`num_splits filesize * bufCap B` bytes of the input. -/
theorem split_file_flatten (filepath : List Char) (data : List α)
    (filesize B : Nat) :
    (fragmentsOf (split_file filepath (some data) filesize B).1).flatten =
      data.take (num_splits filesize * bufCap B) := by
  rw [split_file_fragments, fragments_flatten]

theorem bufCap_of_dvd {B : Nat} (hB : 0 < B) (h : B ∣ MAX_SPLIT_SIZE) :
    bufCap B = MAX_SPLIT_SIZE := by
  rcases h with ⟨q, hq⟩
  unfold bufCap capFrom
  rw [Nat.sub_zero, hq]
  have h1 : B * q + B - 1 = B * q + (B - 1) := by omega
  rw [h1, Nat.mul_add_div hB, Nat.div_eq_of_lt (by omega), Nat.add_zero]

theorem ceilDivNat_spec (a : Nat) :
    a ≤ ceilDivNat a MAX_SPLIT_SIZE * MAX_SPLIT_SIZE ∧
    (0 < a → (ceilDivNat a MAX_SPLIT_SIZE - 1) * MAX_SPLIT_SIZE < a) := by
  have hM : 0 < MAX_SPLIT_SIZE := by decide
  have h1 := Nat.div_add_mod (a + MAX_SPLIT_SIZE - 1) MAX_SPLIT_SIZE
  have h2 := Nat.mod_lt (a + MAX_SPLIT_SIZE - 1) hM
  unfold ceilDivNat
  rw [Nat.sub_mul, Nat.one_mul,
    Nat.mul_comm ((a + MAX_SPLIT_SIZE - 1) / MAX_SPLIT_SIZE) MAX_SPLIT_SIZE]
  omega

theorem ceilDivNat_eq (fs : Nat) (h : 0 < fs) :
    ceilDivNat fs MAX_SPLIT_SIZE =
      if fs % MAX_SPLIT_SIZE = 0 then fs / MAX_SPLIT_SIZE
      else fs / MAX_SPLIT_SIZE + 1 := by
  have hM : 0 < MAX_SPLIT_SIZE := by decide
  have h1 := Nat.div_add_mod fs MAX_SPLIT_SIZE
  unfold ceilDivNat
  by_cases hr : fs % MAX_SPLIT_SIZE = 0
  · rw [if_pos hr]
    obtain ⟨d, hd⟩ : ∃ d, fs = MAX_SPLIT_SIZE * d :=
      ⟨fs / MAX_SPLIT_SIZE, by omega⟩
    rw [hd]
    have h2 : MAX_SPLIT_SIZE * d + MAX_SPLIT_SIZE - 1 =
        MAX_SPLIT_SIZE * d + (MAX_SPLIT_SIZE - 1) := by omega
    rw [h2, Nat.mul_add_div hM,
      Nat.div_eq_of_lt (show MAX_SPLIT_SIZE - 1 < MAX_SPLIT_SIZE by omega),
      Nat.add_zero, Nat.mul_div_cancel_left _ hM]
  · rw [if_neg hr]
    have hrlt : fs % MAX_SPLIT_SIZE < MAX_SPLIT_SIZE := Nat.mod_lt fs hM
    have h3 : fs + MAX_SPLIT_SIZE - 1 =
        MAX_SPLIT_SIZE * (fs / MAX_SPLIT_SIZE) +
          ((fs % MAX_SPLIT_SIZE - 1) + MAX_SPLIT_SIZE) := by omega
    rw [h3, Nat.mul_add_div hM, Nat.add_div_right _ hM,
      Nat.div_eq_of_lt
        (show fs % MAX_SPLIT_SIZE - 1 < MAX_SPLIT_SIZE by omega)]

theorem getLast?_map_range {β : Type} {f : Nat → β} {n : Nat} (h : 0 < n) :
    ((List.range n).map f).getLast? = some (f (n - 1)) := by
  cases n with
  | zero => omega
  | succ m =>
    rw [List.range_succ, List.map_append, List.map_cons, List.map_nil,
      List.getLast?_concat]
    rw [Nat.succ_sub_one]

/-! ### Claim theorems for the splitter engine -/

/-- C2: `num_splits` is `math.ceil(filesize / MAX_SPLIT_SIZE)` with binary64
float division, and that computation is NOT exact for arbitrarily large
integers: at `filesize = 4194304 * MAX_SPLIT_SIZE + 1 = 18014123631575041`
the true quotient `4194304 + 1/MAX_SPLIT_SIZE` rounds to the double
`4194304.0`, so the code computes `4194304` fragments while the exact
ceiling is `4194305`. -/
theorem num_splits_float_ceiling_loses_precision :
    num_splits 18014123631575041 = 4194304 ∧
    ceilDivNat 18014123631575041 MAX_SPLIT_SIZE = 4194305 ∧
    18014123631575041 = 4194304 * MAX_SPLIT_SIZE + 1 := by
  refine ⟨by decide, by decide, by decide⟩

/-- C1: at `filesize = 4194304 * MAX_SPLIT_SIZE + 1` (one byte past four
million full fragments) the float-based fragment count is one short, so
`split_file` reads only `filesize - 1` bytes: the fragment sizes sum to
`filesize - 1`, not `filesize`, and concatenating the fragments does not
reproduce the input — the final byte is silently lost. -/
theorem split_file_roundtrip_fails_at_petabyte_size :
    (fragmentsOf (split_file (['a'] : List Char)
        (some (List.replicate 18014123631575041 (0 : Nat))) 18014123631575041
        THIRTY_TWO_KB).1).flatten.length = 18014123631575040 ∧
    (fragmentsOf (split_file (['a'] : List Char)
        (some (List.replicate 18014123631575041 (0 : Nat))) 18014123631575041
        THIRTY_TWO_KB).1).flatten ≠ List.replicate 18014123631575041 (0 : Nat) := by
  have hn : num_splits 18014123631575041 = 4194304 := by decide
  have hc : bufCap THIRTY_TWO_KB = MAX_SPLIT_SIZE := by decide
  rw [split_file_flatten, hn, hc]
  constructor
  · rw [List.length_take, List.length_replicate]
    decide
  · intro hcontra
    have hl := congrArg List.length hcontra
    rw [List.length_take, List.length_replicate] at hl
    exact absurd hl (by decide)

/-- C3 counterexample: with `buf_size = 7` (which does not divide
`MAX_SPLIT_SIZE`) and an input of `MAX_SPLIT_SIZE + 2` bytes, the first
fragment receives `MAX_SPLIT_SIZE + 2` bytes — it exceeds `MAX_SPLIT_SIZE`,
because the loop only checks the cap before a read and the final 4-byte
read overshoots.  The second fragment is empty, so the non-last fragment is
not `MAX_SPLIT_SIZE` bytes and the last is not `filesize mod
MAX_SPLIT_SIZE`. -/
theorem fragment_exceeds_cap_with_buffer_seven :
    (fragmentsOf (split_file (['c'] : List Char)
        (some (List.replicate (MAX_SPLIT_SIZE + 2) (0 : Nat)))
        (MAX_SPLIT_SIZE + 2) 7).1).map List.length = [MAX_SPLIT_SIZE + 2, 0] ∧
    MAX_SPLIT_SIZE < MAX_SPLIT_SIZE + 2 := by
  constructor
  · have hn : num_splits (MAX_SPLIT_SIZE + 2) = 2 := by decide
    have hrange : List.range 2 = [0, 1] := rfl
    rw [split_file_fragments, hn, hrange]
    simp only [List.map_cons, List.map_nil, List.length_take,
      List.length_drop, List.length_replicate]
    decide
  · decide

/-- C3 (amended): when `buf_size` divides `MAX_SPLIT_SIZE` (as the default
32 KiB does) and the float-computed fragment count equals the exact
ceiling, every fragment except the last is exactly `MAX_SPLIT_SIZE` bytes,
the last is `filesize mod MAX_SPLIT_SIZE` (or `MAX_SPLIT_SIZE` for an exact
positive multiple), and no fragment exceeds `MAX_SPLIT_SIZE`. -/
theorem split_file_fragment_sizes (filepath : List Char) (data : List α)
    (filesize B : Nat) (hB : 0 < B) (hdvd : B ∣ MAX_SPLIT_SIZE)
    (hn : num_splits filesize = ceilDivNat filesize MAX_SPLIT_SIZE)
    (hlen : data.length = filesize) :
    (∀ i, i + 1 < num_splits filesize →
      (fragmentsOf (split_file filepath (some data) filesize B).1)[i]?.map
        List.length = some MAX_SPLIT_SIZE) ∧
    (0 < filesize →
      ((fragmentsOf
          (split_file filepath (some data) filesize B).1).getLast?).map
        List.length =
        some (if filesize % MAX_SPLIT_SIZE = 0 then MAX_SPLIT_SIZE
          else filesize % MAX_SPLIT_SIZE)) ∧
    (∀ l ∈ fragmentsOf (split_file filepath (some data) filesize B).1,
      l.length ≤ MAX_SPLIT_SIZE) := by
  have hM : 0 < MAX_SPLIT_SIZE := by decide
  have hcap : bufCap B = MAX_SPLIT_SIZE := bufCap_of_dvd hB hdvd
  rw [split_file_fragments, hcap, hn]
  have hspec := ceilDivNat_spec filesize
  refine ⟨?_, ?_, ?_⟩
  · intro i hi
    have hfs : 0 < filesize := by
      rcases Nat.eq_zero_or_pos filesize with h0 | h0
      · subst h0
        have : ceilDivNat 0 MAX_SPLIT_SIZE = 0 := by decide
        omega
      · exact h0
    have hlow := hspec.2 hfs
    have hbound : (i + 1) * MAX_SPLIT_SIZE ≤
        (ceilDivNat filesize MAX_SPLIT_SIZE - 1) * MAX_SPLIT_SIZE :=
      Nat.mul_le_mul_right _ (by omega)
    rw [List.getElem?_map, List.getElem?_range (by omega)]
    simp only [Option.map_some', Option.some.injEq, List.length_take,
      List.length_drop, List.length_replicate, hlen]
    rw [Nat.succ_mul] at hbound
    omega
  · intro hfs
    have hpos : 0 < ceilDivNat filesize MAX_SPLIT_SIZE := by
      rcases Nat.eq_zero_or_pos (ceilDivNat filesize MAX_SPLIT_SIZE) with h0 | h0
      · rw [h0, Nat.zero_mul] at hspec
        omega
      · exact h0
    rw [getLast?_map_range hpos]
    simp only [Option.map_some', Option.some.injEq, List.length_take,
      List.length_drop, hlen]
    have h1 := Nat.div_add_mod filesize MAX_SPLIT_SIZE
    have hrlt : filesize % MAX_SPLIT_SIZE < MAX_SPLIT_SIZE :=
      Nat.mod_lt filesize hM
    rw [ceilDivNat_eq filesize hfs]
    by_cases hr : filesize % MAX_SPLIT_SIZE = 0
    · simp only [if_pos hr]
      have hd : 0 < filesize / MAX_SPLIT_SIZE := by
        rcases Nat.eq_zero_or_pos (filesize / MAX_SPLIT_SIZE) with h0 | h0
        · rw [h0, Nat.mul_zero] at h1
          omega
        · exact h0
      have hge : MAX_SPLIT_SIZE * 1 ≤
          MAX_SPLIT_SIZE * (filesize / MAX_SPLIT_SIZE) :=
        Nat.mul_le_mul_left _ hd
      rw [Nat.mul_one] at hge
      rw [Nat.sub_mul, Nat.one_mul,
        Nat.mul_comm (filesize / MAX_SPLIT_SIZE) MAX_SPLIT_SIZE]
      have hfst : filesize = MAX_SPLIT_SIZE * (filesize / MAX_SPLIT_SIZE) := by
        omega
      rw [← hfst]
      have h2 : filesize - (filesize - MAX_SPLIT_SIZE) = MAX_SPLIT_SIZE := by
        omega
      rw [h2, Nat.min_self]
    · simp only [if_neg hr]
      rw [Nat.succ_sub_one,
        Nat.mul_comm (filesize / MAX_SPLIT_SIZE) MAX_SPLIT_SIZE]
      omega
  · intro l hl
    rcases List.mem_map.mp hl with ⟨i, _, hFi⟩
    rw [← hFi, List.length_take]
    omega

/-- Witness for the amended C3 at a concrete five-byte input with the
default 32 KiB buffer. -/
theorem split_file_fragment_sizes_witness :
    0 < THIRTY_TWO_KB ∧ THIRTY_TWO_KB ∣ MAX_SPLIT_SIZE ∧
    num_splits 5 = ceilDivNat 5 MAX_SPLIT_SIZE ∧
    ((fragmentsOf (split_file (['w'] : List Char)
        (some (List.replicate 5 (0 : Nat))) 5 THIRTY_TWO_KB).1).getLast?).map
      List.length =
      some (if (5 : Nat) % MAX_SPLIT_SIZE = 0 then MAX_SPLIT_SIZE
        else (5 : Nat) % MAX_SPLIT_SIZE) := by
  refine ⟨by decide, by decide, by decide, ?_⟩
  exact (split_file_fragment_sizes (['w'] : List Char)
      (List.replicate 5 (0 : Nat)) 5 THIRTY_TWO_KB (by decide) (by decide)
      (by decide) (List.length_replicate 5 0)).2.1 (by decide)

/-- C6: with `filesize = 0` the fragment count is zero, so `split_file`
only creates the split directory (no fragment writes, no progress report —
in particular the division `total_bytes_written / filesize` is never
evaluated) and returns the split directory path. -/
theorem split_file_zero_filesize_creates_directory_only
    (filepath : List Char) (data : List α) (B : Nat) :
    split_file filepath (some data) 0 B =
      ([Eff.makedirs (split_dir filepath)],
       Except.ok (split_dir filepath)) := rfl

/-- C8: at `filesize = 8388608 * MAX_SPLIT_SIZE + 1 = 36028247263150081`
the float-based fragment count is one short, so the report emitted after
the final fragment carries cumulative bytes `filesize - 1`, not
`filesize`. -/
theorem final_report_cumulative_undercounts :
    ((reportsOf (split_file (['b'] : List Char)
        (some (List.replicate 36028247263150081 (0 : Nat))) 36028247263150081
        SIXTY_FOUR_KB).1).getLast?).map Report.cumBytes =
      some 36028247263150080 ∧
    (36028247263150080 : Nat) ≠ 36028247263150081 := by
  constructor
  · rw [split_file_reports, getLast?_map_range (by decide)]
    simp only [Option.map_some', Option.some.injEq, List.length_replicate]
    decide
  · decide

/-- C10: when the input path does not exist, `os.makedirs` (line 69) has
already created the split directory before `open` (line 77) raises
FileNotFoundError, so the failed call still leaves the split directory:
the trace contains the `makedirs` effect and the result is the error. -/
theorem split_file_missing_input_creates_directory (α : Type)
    (filepath : List Char) (filesize B : Nat) :
    @split_file α filepath none filesize B =
      ([Eff.makedirs (split_dir filepath)],
       Except.error PyErr.fileNotFound) := rfl

/-! ### Path string lemmas -/

theorem head?_mem {l : List α} {c : α} (h : l.head? = some c) : c ∈ l := by
  cases l with
  | nil => exact Option.noConfusion h
  | cons x xs =>
    rw [List.head?_cons, Option.some.injEq] at h
    rw [← h]
    exact List.mem_cons_self x xs

theorem takeWhile_all {p : α → Bool} {l : List α} (h : ∀ a ∈ l, p a) :
    l.takeWhile p = l := by
  induction l with
  | nil => rfl
  | cons x xs ih =>
    rw [List.takeWhile_cons, if_pos (h x (List.mem_cons_self x xs))]
    rw [ih fun a ha => h a (List.mem_cons_of_mem x ha)]

theorem dropWhile_all_neg {p : α → Bool} {l : List α}
    (h : ∀ a ∈ l, ¬p a) : l.dropWhile p = l := by
  cases l with
  | nil => rfl
  | cons x xs =>
    rw [List.dropWhile_cons, if_neg (h x (List.mem_cons_self x xs))]

theorem mem_basename {p : List Char} {c : Char} (h : c ∈ basename p) :
    c ≠ '/' := by
  unfold basename at h
  rw [List.mem_reverse] at h
  have h2 := List.mem_takeWhile_imp h
  exact of_decide_eq_true h2

/-- `basename` of a path built by `joinPath` from a nonempty slash-free
final component is that component. -/
theorem basename_joinPath {a b : List Char} (_hb0 : b ≠ [])
    (hbs : ∀ c ∈ b, c ≠ '/') : basename (joinPath a b) = b := by
  have hbrev : ∀ c ∈ b.reverse, (fun c => decide (c ≠ '/')) c = true := by
    intro c hc
    exact decide_eq_true (hbs c (List.mem_reverse.mp hc))
  have hhead : b.head? ≠ some '/' := by
    intro hcon
    exact hbs '/' (head?_mem hcon) rfl
  unfold joinPath
  rw [if_neg hhead]
  by_cases h2 : a = [] ∨ a.getLast? = some '/'
  · rw [if_pos h2]
    unfold basename
    rw [List.reverse_append, List.takeWhile_append_of_pos hbrev]
    have hrest : a.reverse.takeWhile (fun c => decide (c ≠ '/')) = [] := by
      rcases h2 with h2 | h2
      · rw [h2, List.reverse_nil, List.takeWhile_nil]
      · have hh : a.reverse.head? = some '/' := by
          rw [List.head?_reverse]
          exact h2
        cases hr : a.reverse with
        | nil => rw [hr] at hh; exact Option.noConfusion hh
        | cons x xs =>
          rw [hr] at hh
          rw [List.head?_cons, Option.some.injEq] at hh
          subst hh
          rw [List.takeWhile_cons, if_neg (by decide)]
    rw [hrest, List.append_nil, List.reverse_reverse]
  · rw [if_neg h2]
    unfold basename
    rw [List.reverse_append, List.reverse_cons, List.append_assoc,
      List.takeWhile_append_of_pos hbrev]
    have hrest : (['/'] ++ a.reverse).takeWhile (fun c => decide (c ≠ '/')) =
        [] := by
      rw [List.singleton_append, List.takeWhile_cons, if_neg]
      decide
    rw [hrest, List.append_nil, List.reverse_reverse]

theorem getLast?_cons_of_ne_nil {a : α} {l : List α} (h : l ≠ []) :
    (a :: l).getLast? = l.getLast? := by
  cases l with
  | nil => exact absurd rfl h
  | cons x xs => exact List.getLast?_cons_cons

theorem getLast?_append_of_ne_nil {l m : List α} (h : m ≠ []) :
    (l ++ m).getLast? = m.getLast? := by
  rw [List.getLast?_append]
  cases hm : m.getLast? with
  | none => exact absurd (List.getLast?_eq_none_iff.mp hm) h
  | some c => rfl

theorem getLast?_joinPath {a b : List Char} (hb0 : b ≠ [])
    (hhead : b.head? ≠ some '/') :
    (joinPath a b).getLast? = b.getLast? := by
  unfold joinPath
  rw [if_neg hhead]
  by_cases h2 : a = [] ∨ a.getLast? = some '/'
  · rw [if_pos h2, getLast?_append_of_ne_nil hb0]
  · rw [if_neg h2, getLast?_append_of_ne_nil (List.cons_ne_nil _ _),
      getLast?_cons_of_ne_nil hb0]

theorem joinPath_ne_left {a b : List Char} (hb0 : b ≠ [])
    (hhead : b.head? ≠ some '/') : joinPath a b ≠ a := by
  unfold joinPath
  rw [if_neg hhead]
  by_cases h2 : a = [] ∨ a.getLast? = some '/'
  · rw [if_pos h2]
    intro hcon
    have hl := congrArg List.length hcon
    rw [List.length_append] at hl
    have : b.length = 0 := by omega
    exact hb0 (List.length_eq_zero.mp this)
  · rw [if_neg h2]
    intro hcon
    have hl := congrArg List.length hcon
    rw [List.length_append, List.length_cons] at hl
    omega

/-- `os.path.dirname` of `S ++ "/" ++ b` is `S` when `S` does not end in a
slash and `b` contains none. -/
theorem dirname_append {S b : List Char} (hS0 : S ≠ [])
    (hSl : S.getLast? ≠ some '/') (hb : ∀ c ∈ b, c ≠ '/') :
    dirname (S ++ '/' :: b) = S := by
  obtain ⟨c0, hc0⟩ : ∃ c0, S.getLast? = some c0 := by
    cases hS : S.getLast? with
    | none => exact absurd (List.getLast?_eq_none_iff.mp hS) hS0
    | some c => exact ⟨c, rfl⟩
  have hc0s : c0 ≠ '/' := by
    intro h
    rw [h] at hc0
    exact hSl hc0
  have hraw : rawHead (S ++ '/' :: b) = S ++ ['/'] := by
    unfold rawHead
    rw [List.reverse_append, List.reverse_cons]
    have hbrev : ∀ c ∈ b.reverse, (fun c => decide (c ≠ '/')) c = true := by
      intro c hc
      exact decide_eq_true (hb c (List.mem_reverse.mp hc))
    rw [List.append_assoc, List.dropWhile_append_of_pos hbrev,
      List.singleton_append, List.dropWhile_cons, if_neg (by decide)]
    rw [List.reverse_cons, List.reverse_reverse]
  unfold dirname
  rw [hraw]
  have hall : ¬((S ++ ['/']).all fun c => decide (c = '/')) = true := by
    rw [List.all_eq_true]
    intro hcon
    have := hcon c0 (List.mem_append_left _ (List.mem_of_getLast?_eq_some hc0))
    exact hc0s (of_decide_eq_true this)
  rw [if_neg hall]
  rw [List.reverse_append, List.reverse_cons, List.reverse_nil,
    List.nil_append, List.singleton_append, List.dropWhile_cons,
    if_pos (by decide)]
  have hrev : S.reverse.head? = some c0 := by
    rw [List.head?_reverse]
    exact hc0
  cases hr : S.reverse with
  | nil => rw [hr] at hrev; exact Option.noConfusion hrev
  | cons x xs =>
    rw [hr] at hrev
    rw [List.head?_cons, Option.some.injEq] at hrev
    rw [List.dropWhile_cons,
      if_neg (show ¬(decide (x = '/') = true) by
        simp only [decide_eq_true_eq]
        rw [hrev]
        exact hc0s)]
    rw [← hr, List.reverse_reverse]

/-! ### `splitext` structure lemmas -/

theorem splitextBase_of_no_dot {b : List Char} (hb : ∀ c ∈ b, c ≠ '.') :
    splitextBase b = (b, []) := by
  have ht : b.reverse.takeWhile (fun c => decide (c ≠ '.')) = b.reverse :=
    takeWhile_all fun c hc =>
      decide_eq_true (hb c (List.mem_reverse.mp hc))
  simp only [splitextBase]
  rw [ht, if_pos rfl]

/-- When a dot is found, the tail and the preceding part reconstruct the
reversed name. -/
theorem splitext_split {b : List Char}
    (h : ¬(b.reverse.takeWhile (fun c => decide (c ≠ '.'))).length =
      b.reverse.length) :
    ∃ rest, b.reverse =
        b.reverse.takeWhile (fun c => decide (c ≠ '.')) ++ '.' :: rest ∧
      b.reverse.drop
        ((b.reverse.takeWhile (fun c => decide (c ≠ '.'))).length + 1) =
        rest := by
  have hsplit := List.takeWhile_append_dropWhile
    (fun c => decide (c ≠ '.')) b.reverse
  have h0 := List.head?_dropWhile_not (fun c => decide (c ≠ '.')) b.reverse
  cases hd : b.reverse.dropWhile (fun c => decide (c ≠ '.')) with
  | nil =>
    rw [hd, List.append_nil] at hsplit
    exact absurd (congrArg List.length hsplit) h
  | cons c rest =>
    rw [hd] at h0
    simp only [List.head?_cons] at h0
    have hcdot : c = '.' := by
      have h2 := of_decide_eq_false h0
      exact not_ne_iff.mp h2
    set T := b.reverse.takeWhile (fun c => decide (c ≠ '.')) with hT
    refine ⟨rest, ?_, ?_⟩
    · rw [← hsplit, hd, hcdot]
    · rw [← hsplit, hd, hcdot, List.drop_append 1]
      rfl

/-- Structure of `splitextBase b`: the two parts reconstruct `b`, the
extension is empty or a dot followed by a dot-free tail, and both parts
draw their characters from `b` (the extension may add the dot). -/
theorem splitextBase_spec (b : List Char) :
    (splitextBase b).1 ++ (splitextBase b).2 = b ∧
    ((splitextBase b).2 = [] ∨
      ∃ t, (splitextBase b).2 = '.' :: t ∧ ∀ c ∈ t, c ≠ '.') ∧
    (∀ c ∈ (splitextBase b).1, c ∈ b) ∧
    (∀ c ∈ (splitextBase b).2, c = '.' ∨ c ∈ b) := by
  simp only [splitextBase]
  by_cases hlen : (b.reverse.takeWhile (fun c => decide (c ≠ '.'))).length =
      b.reverse.length
  · rw [if_pos hlen]
    refine ⟨List.append_nil b, Or.inl rfl, fun c hc => hc, fun c hc => ?_⟩
    exact absurd hc (List.not_mem_nil c)
  · obtain ⟨rest, hrec, hdrop⟩ := splitext_split hlen
    have hmemtl : ∀ c ∈ (b.reverse.takeWhile
        (fun c => decide (c ≠ '.'))).reverse, c ≠ '.' := by
      intro c hc
      have h2 := List.mem_reverse.mp hc
      have h3 := List.mem_takeWhile_imp h2
      exact of_decide_eq_true h3
    have hmemtl2 : ∀ c ∈ (b.reverse.takeWhile
        (fun c => decide (c ≠ '.'))).reverse, c ∈ b := by
      intro c hc
      have h2 : c ∈ b.reverse := by
        rw [hrec]
        exact List.mem_append_left _ (List.mem_reverse.mp hc)
      exact List.mem_reverse.mp h2
    have hmemrest : ∀ c ∈ rest.reverse, c ∈ b := by
      intro c hc
      have h2 : c ∈ b.reverse := by
        rw [hrec]
        exact List.mem_append_right _
          (List.mem_cons_of_mem '.' (List.mem_reverse.mp hc))
      exact List.mem_reverse.mp h2
    have hb : rest.reverse ++
        '.' :: (b.reverse.takeWhile (fun c => decide (c ≠ '.'))).reverse =
        b := by
      have h2 := congrArg List.reverse hrec
      rw [List.reverse_reverse, List.reverse_append, List.reverse_cons,
        List.append_assoc, List.singleton_append] at h2
      exact h2.symm
    rw [if_neg hlen, hdrop]
    by_cases hany : (rest.reverse.any fun c => decide (c ≠ '.')) = true
    · rw [if_pos hany]
      refine ⟨hb, Or.inr ⟨_, rfl, hmemtl⟩, hmemrest, fun c hc => ?_⟩
      rcases List.mem_cons.mp hc with hc | hc
      · exact Or.inl hc
      · exact Or.inr (hmemtl2 c hc)
    · rw [if_neg hany]
      refine ⟨List.append_nil b, Or.inl rfl, fun c hc => hc, fun c hc => ?_⟩
      exact absurd hc (List.not_mem_nil c)

/-- The split of the extension by `lstrip(".")` (core.py line 66): either
there is no extension, or the extension is a dot plus a dot-free tail and
`lstrip` leaves exactly that tail. -/
theorem file_extension_spec (p : List Char) :
    ((splitextBase (basename p)).2 = [] ∧ file_extension p = []) ∨
    (∃ t, (splitextBase (basename p)).2 = '.' :: t ∧ file_extension p = t ∧
      ∀ c ∈ t, c ≠ '.') := by
  rcases (splitextBase_spec (basename p)).2.1 with h | ⟨t, ht, htd⟩
  · refine Or.inl ⟨h, ?_⟩
    unfold file_extension
    rw [h]
    rfl
  · refine Or.inr ⟨t, ht, ?_, htd⟩
    unfold file_extension
    rw [ht]
    unfold lstripDot
    rw [List.dropWhile_cons, if_pos (by decide)]
    exact dropWhile_all_neg fun a ha => by
      simp only [decide_eq_true_eq]
      exact htd a ha

theorem mem_file_extension {p : List Char} {c : Char}
    (h : c ∈ file_extension p) : c ∈ basename p := by
  rcases file_extension_spec p with ⟨_, he⟩ | ⟨t, ht, he, htd⟩
  · rw [he] at h
    exact absurd h (List.not_mem_nil c)
  · rw [he] at h
    have h2 : c ∈ (splitextBase (basename p)).2 := by
      rw [ht]
      exact List.mem_cons_of_mem '.' h
    rcases (splitextBase_spec (basename p)).2.2.2 c h2 with hc | hc
    · exact absurd hc (htd c h)
    · exact hc

theorem mem_stem {p : List Char} {c : Char}
    (h : c ∈ filename_without_extension p) : c ∈ basename p :=
  (splitextBase_spec (basename p)).2.2.1 c h

/-! ### Decimal digit rendering lemmas -/

theorem digitsAux_congr : ∀ (n f1 f2 : Nat), n < f1 → n < f2 →
    digitsAux f1 n = digitsAux f2 n := by
  intro n
  induction n using Nat.strong_induction_on with
  | _ n ih =>
    intro f1 f2 h1 h2
    cases f1 with
    | zero => omega
    | succ a =>
      cases f2 with
      | zero => omega
      | succ b =>
        simp only [digitsAux]
        by_cases hn : n < 10
        · rw [if_pos hn, if_pos hn]
        · rw [if_neg hn, if_neg hn]
          have hlt : n / 10 < n := Nat.div_lt_self (by omega) (by omega)
          rw [ih (n / 10) hlt a b (by omega) (by omega)]

theorem decimalDigits_eq (n : Nat) :
    decimalDigits n = if n < 10 then [Nat.digitChar n]
      else decimalDigits (n / 10) ++ [Nat.digitChar (n % 10)] := by
  unfold decimalDigits
  simp only [digitsAux]
  by_cases hn : n < 10
  · rw [if_pos hn, if_pos hn]
  · rw [if_neg hn, if_neg hn]
    have hlt : n / 10 < n := Nat.div_lt_self (by omega) (by omega)
    rw [digitsAux_congr (n / 10) n (n / 10 + 1) hlt (by omega)]
    simp only [digitsAux]

theorem digitChar_facts :
    ∀ m, m < 10 → Nat.digitChar m ≠ '/' ∧ Nat.digitChar m ≠ '.' := by
  decide

theorem mem_decimalDigits :
    ∀ (n : Nat) {c : Char}, c ∈ decimalDigits n → c ≠ '/' ∧ c ≠ '.' := by
  intro n
  induction n using Nat.strong_induction_on with
  | _ n ih =>
    intro c hc
    rw [decimalDigits_eq] at hc
    by_cases hn : n < 10
    · rw [if_pos hn] at hc
      have h2 := List.mem_singleton.mp hc
      rw [h2]
      exact digitChar_facts n hn
    · rw [if_neg hn] at hc
      rcases List.mem_append.mp hc with hc | hc
      · exact ih (n / 10) (Nat.div_lt_self (by omega) (by omega)) hc
      · have h2 := List.mem_singleton.mp hc
        rw [h2]
        exact digitChar_facts _ (Nat.mod_lt n (by omega))

theorem decimalDigits_ne_nil (n : Nat) : decimalDigits n ≠ [] := by
  rw [decimalDigits_eq]
  by_cases hn : n < 10
  · rw [if_pos hn]
    exact List.cons_ne_nil _ _
  · rw [if_neg hn]
    intro h
    have h2 := congrArg List.length h
    rw [List.length_append, List.length_singleton, List.length_nil] at h2
    omega

theorem decimalDigits_length_pos (n : Nat) : 1 ≤ (decimalDigits n).length :=
  List.length_pos.mpr (decimalDigits_ne_nil n)

theorem decimalDigits_length_ge_two {n : Nat} (h : 10 ≤ n) :
    2 ≤ (decimalDigits n).length := by
  rw [decimalDigits_eq, if_neg (by omega), List.length_append,
    List.length_singleton]
  have := decimalDigits_length_pos (n / 10)
  omega

theorem decimalDigits_length_ge_three {n : Nat} (h : 100 ≤ n) :
    3 ≤ (decimalDigits n).length := by
  rw [decimalDigits_eq, if_neg (by omega), List.length_append,
    List.length_singleton]
  have h2 : 10 ≤ n / 10 := by
    rw [Nat.le_div_iff_mul_le (by omega)]
    omega
  have := decimalDigits_length_ge_two h2
  omega

theorem decimalDigits_length_le_two {n : Nat} (h : n < 100) :
    (decimalDigits n).length ≤ 2 := by
  rw [decimalDigits_eq]
  by_cases hn : n < 10
  · rw [if_pos hn, List.length_singleton]
    omega
  · rw [if_neg hn, List.length_append, List.length_singleton]
    have hd : n / 10 < 10 := by
      rw [Nat.div_lt_iff_lt_mul (by omega)]
      omega
    have h2 : (decimalDigits (n / 10)).length = 1 := by
      rw [decimalDigits_eq, if_pos hd, List.length_singleton]
    omega

theorem fragName_eq_of_ge_100 {n : Nat} (h : 100 ≤ n) :
    fragName n = decimalDigits n := by
  unfold fragName
  have h3 := decimalDigits_length_ge_three h
  rw [show 2 - (decimalDigits n).length = 0 from by omega]
  rw [List.replicate_zero, List.nil_append]

theorem fragName_length (n : Nat) :
    (fragName n).length = max 2 (decimalDigits n).length := by
  unfold fragName
  rw [List.length_append, List.length_replicate]
  have := decimalDigits_length_pos n
  omega

theorem fragName_length_two {n : Nat} (h : n < 100) :
    (fragName n).length = 2 := by
  rw [fragName_length]
  have h1 := decimalDigits_length_pos n
  have h2 := decimalDigits_length_le_two h
  omega

theorem mem_fragName {n : Nat} {c : Char} (h : c ∈ fragName n) :
    c ≠ '/' ∧ c ≠ '.' := by
  unfold fragName at h
  rcases List.mem_append.mp h with h | h
  · have h2 := List.eq_of_mem_replicate h
    rw [h2]
    exact ⟨by decide, by decide⟩
  · exact mem_decimalDigits n h

theorem fragName_ne_nil (n : Nat) : fragName n ≠ [] := by
  intro h
  have h2 := congrArg List.length h
  rw [fragName_length, List.length_nil] at h2
  omega

theorem fragName_head_ne_slash (n : Nat) : (fragName n).head? ≠ some '/' := by
  intro h
  exact (mem_fragName (head?_mem h)).1 rfl

/-! ### The split directory name and its relation to the input path -/

/-- The final path component of the split directory:
`{stem}.split.{ext}` (core.py line 68). -/
def splitDirName (p : List Char) : List Char :=
  filename_without_extension p ++ splitMarker ++ file_extension p

theorem split_dir_eq (p : List Char) :
    split_dir p = joinPath (dirname p) (splitDirName p) := rfl

theorem splitDirName_ne_nil (p : List Char) : splitDirName p ≠ [] := by
  unfold splitDirName
  intro h
  have h2 := congrArg List.length h
  rw [List.length_append, List.length_append, List.length_nil] at h2
  have h3 : splitMarker.length = 7 := rfl
  omega

theorem mem_splitDirName {p : List Char} {c : Char}
    (h : c ∈ splitDirName p) : c ≠ '/' := by
  unfold splitDirName at h
  rcases List.mem_append.mp h with h | h
  · rcases List.mem_append.mp h with h | h
    · exact mem_basename (mem_stem h)
    · have h2 : ∀ x ∈ splitMarker, x ≠ '/' := by decide
      exact h2 c h
  · exact mem_basename (mem_file_extension h)

theorem splitDirName_head_ne_slash (p : List Char) :
    (splitDirName p).head? ≠ some '/' := by
  intro h
  exact mem_splitDirName (head?_mem h) rfl

theorem splitDirName_getLast_of_no_ext {p : List Char}
    (h : file_extension p = []) : (splitDirName p).getLast? = some '.' := by
  unfold splitDirName
  rw [h, List.append_nil,
    getLast?_append_of_ne_nil (show splitMarker ≠ [] by decide)]
  rfl

theorem split_dir_getLast (p : List Char) :
    (split_dir p).getLast? = (splitDirName p).getLast? := by
  rw [split_dir_eq]
  exact getLast?_joinPath (splitDirName_ne_nil p) (splitDirName_head_ne_slash p)

theorem split_dir_ne_nil (p : List Char) : split_dir p ≠ [] := by
  intro h
  have h2 : (split_dir p).getLast? = none := by
    rw [h]
    rfl
  rw [split_dir_getLast] at h2
  exact splitDirName_ne_nil p (List.getLast?_eq_none_iff.mp h2)

/-- The split directory path is never the input path itself: its final
component carries the extra `".split."` infix. -/
theorem split_dir_ne_self (p : List Char) : split_dir p ≠ p := by
  intro hEq
  have hbn : basename p = splitDirName p := by
    conv_lhs => rw [← hEq]
    rw [split_dir_eq]
    exact basename_joinPath (splitDirName_ne_nil p)
      fun c hc => mem_splitDirName hc
  have hrec := (splitextBase_spec (basename p)).1
  unfold splitDirName at hbn
  unfold filename_without_extension at hbn
  rcases file_extension_spec p with ⟨hraw, hext⟩ | ⟨t, hraw, hext, htd⟩
  · rw [hraw, List.append_nil] at hrec
    rw [hext, List.append_nil, hrec] at hbn
    have h2 := congrArg List.length hbn
    rw [List.length_append] at h2
    have h3 : splitMarker.length = 7 := rfl
    omega
  · rw [hraw] at hrec
    rw [hext] at hbn
    set S := splitextBase (basename p) with hS
    have hbn2 : S.1 ++ '.' :: t = S.1 ++ (splitMarker ++ t) := by
      rw [hrec, hbn, List.append_assoc]
    have h3 := List.append_cancel_left hbn2
    have h4 := congrArg List.length h3
    rw [List.length_cons, List.length_append] at h4
    have h5 : splitMarker.length = 7 := rfl
    omega

/-- No fragment file path is the input path itself. -/
theorem fragPath_ne_self (p : List Char) (i : Nat) :
    joinPath (split_dir p) (fragName i) ≠ p := by
  intro hEq
  have hbn : basename p = fragName i := by
    conv_lhs => rw [← hEq]
    exact basename_joinPath (fragName_ne_nil i)
      fun c hc => (mem_fragName hc).1
  have hdotfree : ∀ c ∈ basename p, c ≠ '.' := by
    rw [hbn]
    intro c hc
    exact (mem_fragName hc).2
  have hsb : splitextBase (basename p) = (basename p, []) :=
    splitextBase_of_no_dot hdotfree
  have hextnil : file_extension p = [] := by
    unfold file_extension
    rw [hsb]
    rfl
  have hlast : (split_dir p).getLast? = some '.' := by
    rw [split_dir_getLast]
    exact splitDirName_getLast_of_no_ext hextnil
  have hSne : split_dir p ≠ [] := split_dir_ne_nil p
  have hSl : (split_dir p).getLast? ≠ some '/' := by
    rw [hlast]
    decide
  have hjoin : joinPath (split_dir p) (fragName i) =
      split_dir p ++ '/' :: fragName i := by
    unfold joinPath
    rw [if_neg (fragName_head_ne_slash i), if_neg]
    intro hcon
    rcases hcon with hcon | hcon
    · exact hSne hcon
    · exact hSl hcon
  rw [hjoin] at hEq
  have hdn : dirname p = split_dir p := by
    conv_lhs => rw [← hEq]
    exact dirname_append hSne hSl fun c hc => (mem_fragName hc).1
  have hcontra : joinPath (split_dir p) (splitDirName p) ≠ split_dir p :=
    joinPath_ne_left (splitDirName_ne_nil p) (splitDirName_head_ne_slash p)
  apply hcontra
  calc joinPath (split_dir p) (splitDirName p)
      = joinPath (dirname p) (splitDirName p) := by rw [hdn]
    _ = split_dir p := (split_dir_eq p).symm

theorem writePathsOf_mem {t : List (Eff α)} {q : List Char}
    (h : q ∈ writePathsOf t) : ∃ dd, Eff.fileWrite q dd ∈ t := by
  rw [writePathsOf, List.mem_filterMap] at h
  rcases h with ⟨e, he, hsome⟩
  cases e with
  | makedirs p => exact Option.noConfusion hsome
  | fileWrite p d =>
    simp only [Option.some.injEq] at hsome
    rw [← hsome]
    exact ⟨d, he⟩
  | emitReport r => exact Option.noConfusion hsome
  | removeFile p => exact Option.noConfusion hsome

/-- C7: the output layout.  Fragment writes go exactly to
`<split_dir>/<NN>` for indices `0 .. num_splits - 1`; the split directory
is `<parent>/<stem>.split.<ext>`; an input with no extension yields a
directory name with a literal trailing dot; fragment names are zero-padded
to width two and are never truncated (indices at or above 100 use their
natural decimal width, at least three characters). -/
theorem split_file_output_layout (filepath : List Char) (data : List α)
    (filesize B : Nat) :
    writePathsOf (split_file filepath (some data) filesize B).1 =
      (List.range (num_splits filesize)).map
        (fun i => joinPath (split_dir filepath) (fragName i)) ∧
    split_dir filepath = joinPath (dirname filepath)
      (filename_without_extension filepath ++ splitMarker ++
        file_extension filepath) ∧
    (file_extension filepath = [] →
      (split_dir filepath).getLast? = some '.') ∧
    (∀ i, i < 100 → (fragName i).length = 2) ∧
    (∀ i, 100 ≤ i → fragName i = decimalDigits i ∧
      3 ≤ (decimalDigits i).length) := by
  refine ⟨split_file_writePaths filepath data filesize B, rfl, ?_, ?_, ?_⟩
  · intro h
    rw [split_dir_getLast]
    exact splitDirName_getLast_of_no_ext h
  · intro i hi
    exact fragName_length_two hi
  · intro i hi
    exact ⟨fragName_eq_of_ge_100 hi, decimalDigits_length_ge_three hi⟩

/-- Witness for the C7 layout facts at concrete inputs: an
extension-less input file named `file` yields a split directory ending in
a dot, index 7 is rendered as two characters, index 123 at natural
width. -/
theorem split_file_output_layout_witness :
    (split_dir ['f', 'i', 'l', 'e']).getLast? = some '.' ∧
    (fragName 7).length = 2 ∧ fragName 123 = decimalDigits 123 := by
  have h := split_file_output_layout ['f', 'i', 'l', 'e'] ([] : List Nat) 0 1
  exact ⟨h.2.2.1 (by decide), h.2.2.2.1 7 (by decide),
    (h.2.2.2.2 123 (by decide)).1⟩

/-- C9: `split_file` never deletes or overwrites its input: the trace
contains no `removeFile` effect (the `os.remove` on line 110 is commented
out), every fragment write targets a path inside the split directory and
distinct from the input path, and the created directory path is also
distinct from the input path. -/
theorem split_file_preserves_source (filepath : List Char) (data : List α)
    (filesize B : Nat) :
    (∀ q, Eff.removeFile q ∉ (split_file filepath (some data) filesize B).1) ∧
    (∀ q d2,
      Eff.fileWrite q d2 ∈ (split_file filepath (some data) filesize B).1 →
      q ≠ filepath) ∧
    (∀ q, Eff.makedirs q ∈ (split_file filepath (some data) filesize B).1 →
      q ≠ filepath) := by
  rw [split_file_trace]
  refine ⟨?_, ?_, ?_⟩
  · intro q hq
    rcases List.mem_cons.mp hq with h | h
    · exact Eff.noConfusion h
    · exact splitGo_no_remove _ _ _ _ _ _ _ _ _ _ h
  · intro q d2 hq
    rcases List.mem_cons.mp hq with h | h
    · exact Eff.noConfusion h
    · rcases splitGo_fileWrite_path _ _ _ _ _ _ _ _ _ _ _ h with ⟨i, hi⟩
      rw [hi]
      exact fragPath_ne_self filepath i
  · intro q hq
    rcases List.mem_cons.mp hq with h | h
    · have h2 : q = split_dir filepath := by
        injection h
      rw [h2]
      exact split_dir_ne_self filepath
    · exact absurd h (splitGo_no_makedirs _ _ _ _ _ _ _ _ _ _)

/-- Witness for C9 at a concrete one-byte input file `a.txt`. -/
theorem split_file_preserves_source_witness :
    joinPath (split_dir ['a', '.', 't', 'x', 't']) (fragName 0) ≠
      ['a', '.', 't', 'x', 't'] ∧
    split_dir ['a', '.', 't', 'x', 't'] ≠ ['a', '.', 't', 'x', 't'] := by
  have h := split_file_preserves_source ['a', '.', 't', 'x', 't']
    ([0] : List Nat) 1 THIRTY_TWO_KB
  constructor
  · have hw : joinPath (split_dir ['a', '.', 't', 'x', 't']) (fragName 0) ∈
        writePathsOf (split_file ['a', '.', 't', 'x', 't']
          (some ([0] : List Nat)) 1 THIRTY_TWO_KB).1 := by
      rw [split_file_writePaths]
      have hn1 : num_splits 1 = 1 := by decide
      rw [hn1, show List.range 1 = [0] from rfl, List.map_cons, List.map_nil]
      exact List.mem_singleton.mpr rfl
    rcases writePathsOf_mem hw with ⟨dd, hmem⟩
    exact h.2.1 _ dd hmem
  · exact h.2.2 _ (by
      rw [split_file_trace]
      exact List.mem_cons_self _ _)

/-! ### Claim theorems for the file enumerator -/

/-- Refinement-side definition, following the spec's words (§4.2): the
top-level regular files whose names end with the literal extension string,
joined to the directory — no descent into subdirectories. -/
def specTopLevelMatches (directory : List Char) (es : List Entry)
    (ext : List Char) : List (List Char) :=
  ((fileNamesOf es).filter fun f => ext.isSuffixOf f).map
    fun f => joinPath directory f

/-- Refinement-side definition, following the spec's words (§4.2): the
matching regular files of the whole tree, every nested subdirectory
included. -/
def specAllMatches (ext : List Char) : List Char → List Entry → List (List Char)
  | _, [] => []
  | d, Entry.file n :: rest =>
    (if ext.isSuffixOf n then [joinPath d n] else []) ++
      specAllMatches ext d rest
  | d, Entry.dir n ch :: rest =>
    specAllMatches ext (joinPath d n) ch ++ specAllMatches ext d rest

/-- The cons equation of `collectGo` in the recursive case. -/
theorem collectGo_cons_true (ext root : List Char)
    (files : List (List Char)) (W : List (List Char × List (List Char))) :
    collectGo ext true ((root, files) :: W) =
      ((files.filter fun f => ext.isSuffixOf f).map fun f => joinPath root f)
        ++ collectGo ext true W := rfl

theorem collectGo_true_append (ext : List Char)
    (l1 l2 : List (List Char × List (List Char))) :
    collectGo ext true (l1 ++ l2) =
      collectGo ext true l1 ++ collectGo ext true l2 := by
  induction l1 with
  | nil => rfl
  | cons f rest ih =>
    cases f with
    | mk root files =>
      rw [List.cons_append, collectGo_cons_true, collectGo_cons_true, ih,
        List.append_assoc]

/-- The recursive walk starting below `path` collects exactly the matches
the spec-side recursion describes. -/
theorem mem_collect_walk (ext : List Char) :
    ∀ (path : List Char) (es : List Entry) (x : List Char),
      (x ∈ collectGo ext true ((path, fileNamesOf es) :: walkFrames path es) ↔
        x ∈ specAllMatches ext path es)
  | path, [], x => by
    rw [collectGo_cons_true]
    simp [walkFrames, fileNamesOf, specAllMatches,
      show collectGo ext true [] = ([] : List (List Char)) from rfl]
  | path, Entry.file n :: rest, x => by
    have ih := mem_collect_walk ext path rest x
    rw [collectGo_cons_true] at ih
    have hw : walkFrames path (Entry.file n :: rest) =
        walkFrames path rest := by
      simp [walkFrames]
    have hs : specAllMatches ext path (Entry.file n :: rest) =
        (if ext.isSuffixOf n then [joinPath path n] else []) ++
          specAllMatches ext path rest := by
      simp [specAllMatches]
    rw [show fileNamesOf (Entry.file n :: rest) = n :: fileNamesOf rest
        from rfl,
      hw, hs, collectGo_cons_true, List.filter_cons]
    by_cases hsuf : ext.isSuffixOf n = true
    · rw [if_pos hsuf, if_pos hsuf, List.map_cons, List.cons_append,
        List.singleton_append, List.mem_cons, List.mem_cons]
      exact or_congr Iff.rfl ih
    · rw [if_neg hsuf, if_neg hsuf, List.nil_append]
      exact ih
  | path, Entry.dir n ch :: rest, x => by
    have ih1 := mem_collect_walk ext (joinPath path n) ch x
    have ih2 := mem_collect_walk ext path rest x
    rw [collectGo_cons_true] at ih1 ih2
    have hw : walkFrames path (Entry.dir n ch :: rest) =
        (joinPath path n, fileNamesOf ch) ::
          (walkFrames (joinPath path n) ch ++ walkFrames path rest) := by
      simp [walkFrames]
    have hs : specAllMatches ext path (Entry.dir n ch :: rest) =
        specAllMatches ext (joinPath path n) ch ++
          specAllMatches ext path rest := by
      simp [specAllMatches]
    rw [show fileNamesOf (Entry.dir n ch :: rest) = fileNamesOf rest
        from rfl,
      hw, hs, collectGo_cons_true, collectGo_cons_true,
      collectGo_true_append]
    simp only [List.mem_append] at ih1 ih2 ⊢
    tauto
  termination_by _ es _ => sizeOf es

/-- C5: `collect_files` on an existing directory.  Non-recursively it
returns exactly the top-level regular files whose names end with the
literal extension (the walk loop `break`s after the first frame, so no
subdirectory contributes); recursively it returns, as a set, exactly the
matching files of every nested subdirectory as well. -/
theorem collect_files_enumeration (directory : List Char) (es : List Entry)
    (extension : List Char) :
    collect_files directory (some es) extension false =
      specTopLevelMatches directory es extension ∧
    ∀ q, q ∈ collect_files directory (some es) extension true ↔
      q ∈ specAllMatches extension directory es := by
  constructor
  · simp only [collect_files, osWalk, collectGo, specTopLevelMatches]
    rw [if_neg (by decide), List.append_nil]
  · intro q
    exact mem_collect_walk extension directory es q

/-- C4 counterexample: `os.walk` on a missing directory yields nothing
(the scandir error goes to the default `onerror=None` and is swallowed),
so `collect_files` returns the empty list instead of failing with
NotFound, here at the concrete directory `d` and extension `.mp4`, for
both values of `recursive`. -/
theorem collect_files_missing_directory_returns_empty_concrete :
    collect_files ['d'] none ['.', 'm', 'p', '4'] true = [] ∧
    collect_files ['d'] none ['.', 'm', 'p', '4'] false = [] :=
  ⟨rfl, rfl⟩

/-- C4 (amended): for a directory that does not exist, `collect_files`
returns the empty list — it does not raise — for every extension and both
values of `recursive`. -/
theorem collect_files_missing_directory_returns_empty
    (directory extension : List Char) (recursive : Bool) :
    collect_files directory none extension recursive = [] := rfl

end NSplitter
